import Mathlib

/-!
Verification of the metaQuery metadata-exploration pipeline
(`src/metaQuery.py`): shallow embedding of the text normalizer,
duplicate detector, grouping engine, row filter and export assembler,
together with proofs and refutations of the specified properties.

Modelling conventions:
* a pandas cell is a `Value`: a string, an integer, or the NaN marker;
  `Value.pyStr` is Python's `str()` on these values (`astype(str)`);
* a DataFrame is a `Table`: column names, a per-column flag recording
  whether the pandas dtype is object/string (`textual`), and a list of
  rows (each row a list of cells in column order);
* Python regular expressions are modelled on the fragment the program
  actually exercises: literal characters (compared case-insensitively
  under `re.IGNORECASE`) and the `.` wildcard, which matches any
  character except a newline.  Character classes (`\\s`, `\\w`) are
  modelled over their ASCII content.
-/

namespace MetaQuery

/-- A pandas cell value: a string, an integer, or the NaN/missing marker. -/
inductive Value where
  | vStr (s : String)
  | vInt (n : Int)
  | vNaN
deriving DecidableEq

/-- Python `str()` applied to a cell value, as pandas `astype(str)` does:
strings unchanged, integers in decimal, NaN rendered as `"nan"`. -/
def Value.pyStr : Value → String
  | .vStr s => s
  | .vInt n => toString n
  | .vNaN => "nan"

/-- Python whitespace as matched by `str.strip` and the regex class `\s`
(ASCII fragment): space, tab, newline, carriage return, vertical tab,
form feed. -/
def isPySpace (c : Char) : Bool :=
  c = ' ' || c = '\t' || c = '\n' || c = '\r' || c = '\x0b' || c = '\x0c'

/-- The regex class `\w` (ASCII fragment): alphanumeric or underscore. -/
def isWordChar (c : Char) : Bool :=
  c.isAlphanum || c = '_'

/-- Characters kept by `re.sub(r"[^\w\s()/]", "", text)` in `normalize_text`:
word characters, whitespace, parentheses and slash. -/
def isKeptChar (c : Char) : Bool :=
  isWordChar c || isPySpace c || c = '(' || c = ')' || c = '/'

/-- The separator class `[_\-]` of `normalize_text`. -/
def isSepChar (c : Char) : Bool :=
  c = '_' || c = '-'

/-- Replace every maximal run of characters satisfying `p` by a single
space, as `re.sub(r"[p]+", " ", ·)` does.  The boolean argument records
whether the previous character was part of a run. -/
def subRunsAux (p : Char → Bool) : Bool → List Char → List Char
  | _, [] => []
  | inRun, c :: cs =>
    if p c then
      if inRun then subRunsAux p true cs
      else ' ' :: subRunsAux p true cs
    else c :: subRunsAux p false cs

/-- Replace every maximal run of characters satisfying `p` by one space. -/
def subRuns (p : Char → Bool) (l : List Char) : List Char :=
  subRunsAux p false l

/-- Python `str.strip`: drop leading and trailing whitespace. -/
def pyStrip (l : List Char) : List Char :=
  ((l.dropWhile isPySpace).reverse.dropWhile isPySpace).reverse

/-- The four-stage transformation of `normalize_text` on the character
list of a string: lowercase, strip, replace separator runs by a space,
collapse whitespace runs, remove characters outside `[\w\s()/]`. -/
def normalizeChars (l : List Char) : List Char :=
  ((subRuns isPySpace (subRuns isSepChar (pyStrip (l.map Char.toLower)))).filter isKeptChar)

/-- `normalize_text` on a string argument (the `isinstance(text, str)` branch). -/
def normalize_text_str (s : String) : String :=
  ⟨normalizeChars s.data⟩

/-- `normalize_text` on an arbitrary cell: non-strings pass through unchanged. -/
def normalize_text (v : Value) : Value :=
  match v with
  | .vStr s => .vStr (normalize_text_str s)
  | v => v

/-- Strip edge whitespace and collapse interior whitespace runs of a
string; the extra work a second `normalize_text` pass performs. -/
def restripped (s : String) : String :=
  ⟨subRuns isPySpace (pyStrip s.data)⟩

/-- Does one regex token match one text character?  A literal character
matches case-insensitively (`re.IGNORECASE`), and `.` matches every
character except a newline. -/
def reTokMatch (p c : Char) : Bool :=
  if p = '.' then c != '\n' else p.toLower == c.toLower

/-- Does the pattern match a leading segment of the text? -/
def reLead : List Char → List Char → Bool
  | [], _ => true
  | _ :: _, [] => false
  | p :: ps, c :: cs => reTokMatch p c && reLead ps cs

/-- `re.search` on the literal-and-dot regex fragment: the pattern
matches starting at some position of the text.  This is the semantics of
`Series.str.contains(query, case=False)` in `text_search`, which passes
the raw query as a regex pattern (the default is `regex=True` and the
query is not escaped). -/
def reSearch (pat : List Char) : List Char → Bool
  | [] => reLead pat []
  | c :: cs => reLead pat (c :: cs) || reSearch pat cs

/-- Is the first list a leading segment of the second (plain equality)? -/
def leadEq : List Char → List Char → Bool
  | [], _ => true
  | _ :: _, [] => false
  | a :: as, b :: bs => a == b && leadEq as bs

/-- Does `needle` occur as a contiguous sublist of `hay`? -/
def occursIn (needle : List Char) : List Char → Bool
  | [] => needle.isEmpty
  | c :: cs => leadEq needle (c :: cs) || occursIn needle cs

/-- Lowercase every character of a list. -/
def lowerList (l : List Char) : List Char :=
  l.map Char.toLower

/-- Case-insensitive literal substring containment: does `hay` contain
`needle` as a contiguous substring, ignoring case? -/
def containsCI (hay needle : String) : Bool :=
  occursIn (lowerList needle.data) (lowerList hay.data)

/-- Characters that are special in a Python regular expression. -/
def isReMeta (c : Char) : Bool :=
  c = '.' || c = '^' || c = '$' || c = '*' || c = '+' || c = '?' ||
  c = '\x7b' || c = '\x7d' || c = '[' || c = ']' || c = '\\' || c = '|' ||
  c = '(' || c = ')'

/-- A pandas DataFrame: column names, a flag per column recording whether
its dtype is object/string (what `select_dtypes(include=["object",
"string"])` selects), and the rows, each a list of cells in column
order. -/
structure Table where
  cols : List String
  textual : List Bool
  rows : List (List Value)
deriving DecidableEq

/-- Well-formedness of a table: every row has one cell per column and the
dtype flags line up with the columns. -/
def Table.WF (t : Table) : Prop :=
  (∀ r ∈ t.rows, r.length = t.cols.length) ∧ t.textual.length = t.cols.length

/-- The cell of a row at a column position (NaN when out of range). -/
def cellAt (r : List Value) (j : Nat) : Value :=
  r.getD j Value.vNaN

/-- The position of a column name in a column list (first match). -/
def colIdx (name : String) : List String → Option Nat
  | [] => none
  | c :: cs => if c == name then some 0 else (colIdx name cs).map (· + 1)

/-- Keep the entries of a list whose mask bit is true, positionally. -/
def applyMask : List Bool → List α → List α
  | true :: bs, a :: as => a :: applyMask bs as
  | false :: bs, _ :: as => applyMask bs as
  | _, _ => []

/-- Drop every column whose name belongs to `names`
(`df.drop(columns=names, errors="ignore")` / column selection). -/
def dropColsByName (t : Table) (names : List String) : Table :=
  let mask := t.cols.map (fun c => !(decide (c ∈ names)))
  { cols := applyMask mask t.cols
    textual := applyMask mask t.textual
    rows := t.rows.map (fun r => applyMask mask r) }

/-- Column assignment `df[name] = vals`: overwrite the column in place if
the name exists, else append it as the last column.  The assigned values
are strings, so the column's dtype becomes object. -/
def setCol (t : Table) (name : String) (vals : List Value) : Table :=
  match colIdx name t.cols with
  | some j =>
    { cols := t.cols
      textual := t.textual.set j true
      rows := List.zipWith (fun r v => r.set j v) t.rows vals }
  | none =>
    { cols := t.cols ++ [name]
      textual := t.textual ++ [true]
      rows := List.zipWith (fun r v => r ++ [v]) t.rows vals }

/-- The provenance column name stamped at ingest. -/
def SOURCE_FILE : String := "Source_File"

/-- The display projection of the filtered table:
`display_cols = [c for c in filtered_df.columns if c not in ["Source_File"]]`. -/
def displayTable (t : Table) : Table :=
  dropColsByName t [SOURCE_FILE]

/-- Does a row match the query?  The mask of `text_search`: the OR, over
all object/string columns, of `astype(str).str.contains(query,
case=False, na=False)`. -/
def rowMatches (t : Table) (q : String) (r : List Value) : Bool :=
  (List.range t.cols.length).any
    (fun j => t.textual.getD j false && reSearch q.data ((cellAt r j).pyStr).data)

/-- `text_search(df, query)`: the empty query returns the table
unchanged; otherwise keep the rows whose mask bit is set. -/
def text_search (t : Table) (q : String) : Table :=
  if q = "" then t
  else { t with rows := t.rows.filter (rowMatches t q) }

/-- Worker for `groupByKey`, structurally recursive on a fuel argument:
peel off the first row, collect the rows sharing its key as the first
group, and recurse on the remainder.  The fuel only bounds the
recursion; any fuel at least the list length yields the full result. -/
def groupByGo (key : List Value → String) : Nat → List (List Value) → List (String × List (List Value))
  | _, [] => []
  | 0, _ :: _ => []
  | Nat.succ fuel, r :: rs =>
    (key r, r :: rs.filter (fun x => key x == key r)) ::
      groupByGo key fuel (rs.filter (fun x => !(key x == key r)))

/-- `df.groupby(key, sort=False)`: groups listed in order of first
occurrence of their key, each group holding its rows in original
relative order. -/
def groupByKey (key : List Value → String) (rows : List (List Value)) :
    List (String × List (List Value)) :=
  groupByGo key rows.length rows

/-- The distinct elements of a list in order of first occurrence. -/
def firstOccurs : List String → List String
  | [] => []
  | k :: ks => k :: firstOccurs (ks.filter (fun x => !(x == k)))
termination_by l => l.length
decreasing_by
  simp only [List.length_cons]
  exact Nat.lt_succ_of_le (List.length_filter_le _ _)

/-- The grouping key of a row: the parent (first) cell as a lowercased
string, `df[parent_col].astype(str).str.lower()`. -/
def keyLower (r : List Value) : String :=
  ⟨lowerList ((cellAt r 0).pyStr).data⟩

/-- The `_group_key` column values computed for a table. -/
def groupKeyVals (t : Table) : List Value :=
  t.rows.map (fun r => Value.vStr (keyLower r))

/-- The normalization the deduplication pass applies to one cell: cells
of object/string-dtyped columns are stringified and then normalized
(`astype(str).apply(normalize_text)`); other columns are untouched. -/
def normalizeCell (textual : Bool) (v : Value) : Value :=
  if textual then Value.vStr (normalize_text_str v.pyStr) else v

/-- The deduplication key of a row: the normalized-shadow value of the
second column. -/
def keyOf (t : Table) (r : List Value) : Value :=
  normalizeCell (t.textual.getD 1 false) (cellAt r 1)

/-- One pass of `duplicated(subset=[second_col], keep="first")` splitting
the rows (paired with their original positions, starting at `i`) into
kept and removed: a row is removed exactly when its key has been seen
before. -/
def dedupGo (key : List Value → Value) (seen : List Value) (i : Nat) :
    List (List Value) → List (Nat × List Value) × List (Nat × List Value)
  | [] => ([], [])
  | r :: rest =>
    let p := dedupGo key (key r :: seen) (i + 1) rest
    if key r ∈ seen then (p.1, (i, r) :: p.2) else ((i, r) :: p.1, p.2)

/-- The module-level deduplication block: if the table has more than one
column, split rows by the normalized second-column key; otherwise skip
deduplication, keep everything, remove nothing and surface a warning
(the boolean component). -/
def dedupPipeline (t : Table) : List (Nat × List Value) × List (Nat × List Value) × Bool :=
  if 1 < t.cols.length then
    let p := dedupGo (keyOf t) [] 0 t.rows
    (p.1, p.2, false)
  else
    (List.enumFrom 0 t.rows, [], true)

/-- Does a column name contain "definition" case-insensitively
(`"definition" in c.lower()`)? -/
def isDefCol (c : String) : Bool :=
  occursIn "definition".data (lowerList c.data)

/-- The filtered table after line 162 adds the `_group_key` column
(which is never dropped from `filtered_df` itself). -/
def withGroupKey (d : Table) : Table :=
  setCol d "_group_key" (groupKeyVals d)

/-- The column mask of the per-group selection table: hide the parent
(first) column, every definition-named column, and `_group_key`
(`cols_to_hide` plus the `_group_key` drop). -/
def hideMask (d : Table) : List Bool :=
  let parent := d.cols.headD ""
  let hide := parent :: ((withGroupKey d).cols.filter isDefCol ++ ["_group_key"])
  (withGroupKey d).cols.map (fun c => !(decide (c ∈ hide)))

/-- The columns of the selection (checkbox) table, in display order. -/
def edit_cols (d : Table) : List String :=
  applyMask (hideMask d) (withGroupKey d).cols

/-- The rows of the selection table: groups in first-occurrence order,
rows within a group in original order (`pd.concat(editable_rows)`), each
row projected to the visible columns. -/
def edit_rows (d : Table) : List (List Value) :=
  (((groupByKey keyLower (withGroupKey d).rows).map Prod.snd).flatten).map
    (applyMask (hideMask d))

/-- The rows of `final_filtered`: the selection-table rows whose checkbox
(indexed by display position) is ticked, in display order. -/
def final_rows (d : Table) (sel : Nat → Bool) : List (List Value) :=
  ((List.enumFrom 0 (edit_rows d)).filter (fun p => sel p.1)).map Prod.snd

/-- The `column_to_export` scan: if `final_filtered` is nonempty, the
first of its columns different from `Source_File`; otherwise, if the
filtered table is nonempty, the first such column there; otherwise none. -/
def column_to_export (d : Table) (sel : Nat → Bool) : Option String :=
  if !(final_rows d sel).isEmpty && !(edit_cols d).isEmpty then
    (edit_cols d).find? (fun c => c != SOURCE_FILE)
  else if !d.rows.isEmpty && !(withGroupKey d).cols.isEmpty then
    (withGroupKey d).cols.find? (fun c => c != SOURCE_FILE)
  else none

/-- `final_filtered[c].dropna().tolist()`: the values of column `c`, in
row order, with NaN entries dropped. -/
def colValuesDropNa (cols : List String) (rows : List (List Value)) (c : String) : List Value :=
  match colIdx c cols with
  | some j => (rows.map (fun r => cellAt r j)).filter (fun v => !(v == Value.vNaN))
  | none => []

/-- The rows of the `col_data` DataFrame: `pd.DataFrame([values])` is a
single row holding every value, and `pd.DataFrame([[]])` a single empty
row; an empty or falsy target column also yields the single empty row. -/
def col_data (d : Table) (sel : Nat → Bool) : List (List Value) :=
  match column_to_export d sel with
  | some c =>
    if c ≠ "" then
      if !(final_rows d sel).isEmpty && !(edit_cols d).isEmpty then
        [colValuesDropNa (edit_cols d) (final_rows d sel) c]
      else [[]]
    else [[]]
  | none => [[]]

/-- The cell grid written to the spreadsheet: `to_excel(...,
index=False, header=False)` writes exactly the DataFrame's rows, with no
header row and no index column. -/
def export_grid (d : Table) (sel : Nat → Bool) : List (List Value) :=
  col_data d sel

/-- The flat sequence of values the export carries. -/
def assemble_export (d : Table) (sel : Nat → Bool) : List Value :=
  (col_data d sel).flatten

/-- The grid a single-column spreadsheet of the given values would have:
one row per value. -/
def singleColumnGrid (vals : List Value) : List (List Value) :=
  vals.map (fun v => [v])

/-- The download name hard-coded in the export anchor. -/
def download_name : String := "new_meta_schema.xlsx"

/-- The first display-order column that is not the provenance column,
following the spec's description of `target_column` (the displayed table
is the filtered table minus `Source_File`). -/
def specTargetColumn (t : Table) : Option String :=
  (displayTable t).cols.find? (fun c => c != SOURCE_FILE)

/-- The net effect of `generate_parent_grouped_html` on its argument
DataFrame: the function assigns `df["_group_key"]`, renders the HTML
from it (which reads but does not write `df`), and finally executes
`df.drop(columns=["_group_key"], inplace=True)`; this is the state of
`df` after the call returns. -/
def generate_parent_grouped_df (t : Table) : Table :=
  dropColsByName (setCol t "_group_key" (groupKeyVals t)) ["_group_key"]

/-! Concrete fixtures used by counterexamples and witnesses. -/

/-- A selection function ticking no checkbox. -/
def selNone : Nat → Bool := fun _ => false

/-- A selection function ticking every checkbox. -/
def selAll : Nat → Bool := fun _ => true

/-- A filtered three-row table (provenance column already dropped from
display) with every target-candidate value present. -/
def dC1 : Table :=
  { cols := ["Concept", "Code"]
    textual := [true, true]
    rows := [[Value.vStr "Age", Value.vStr "A1"],
             [Value.vStr "Sex", Value.vStr "A2"],
             [Value.vStr "Height", Value.vStr "A3"]] }

/-- A one-group two-row display table whose selection table carries the
values "a" and "b". -/
def dC2 : Table :=
  { cols := ["P", "V"]
    textual := [true, true]
    rows := [[Value.vStr "g", Value.vStr "a"],
             [Value.vStr "g", Value.vStr "b"]] }

/-- A one-cell table whose only value is "abc". -/
def tRe : Table :=
  { cols := ["A"], textual := [true], rows := [[Value.vStr "abc"]] }

/-- A two-column, two-row search fixture. -/
def tSearch : Table :=
  { cols := ["A"], textual := [true], rows := [[Value.vStr "xAByz"], [Value.vInt 5]] }

/-- Rows whose parent values are B, A, B, C (the spec's grouping
example). -/
def rowsB : List (List Value) :=
  [[Value.vStr "B", Value.vInt 1],
   [Value.vStr "A", Value.vInt 2],
   [Value.vStr "B", Value.vInt 3],
   [Value.vStr "C", Value.vInt 4]]

/-- The deduplication fixture from the spec: two definitions that
normalize identically, plus a distinct third row. -/
def tDedup : Table :=
  { cols := ["Concept", "Definition"]
    textual := [true, true]
    rows := [[Value.vStr "Age", Value.vStr "years_old"],
             [Value.vStr "AGE", Value.vStr "Years-Old"],
             [Value.vStr "Height", Value.vStr "cm"]] }

/-- A table whose second column holds a genuine NaN in one row and the
string "nan" in the other. -/
def tNaN : Table :=
  { cols := ["A", "B"]
    textual := [true, true]
    rows := [[Value.vStr "x", Value.vNaN],
             [Value.vStr "y", Value.vStr "nan"]] }

/-- A table with a non-textual (numeric-dtyped) second column. -/
def tNum : Table :=
  { cols := ["A", "B"]
    textual := [true, false]
    rows := [[Value.vStr "x", Value.vInt 7]] }

/-- A one-column table. -/
def tOneCol : Table :=
  { cols := ["Concept"], textual := [true], rows := [[Value.vStr "Age"]] }

/-- A table that already owns a column named `_group_key`. -/
def tGK : Table :=
  { cols := ["A", "_group_key"]
    textual := [true, true]
    rows := [[Value.vStr "x", Value.vStr "old"]] }

/-- A plain well-formed table without a `_group_key` column. -/
def tPlain : Table :=
  { cols := ["A", "B", "Source_File"]
    textual := [true, true, true]
    rows := [[Value.vStr "x", Value.vStr "u", Value.vStr "f.csv"],
             [Value.vStr "y", Value.vStr "v", Value.vStr "f.csv"]] }

/-! ## Lemmas about the text normalizer -/

theorem toNat_ofNat_valid {n : Nat} (h : n.isValidChar) : (Char.ofNat n).toNat = n := by
  simp only [Char.ofNat, dif_pos h, Char.ofNatAux, Char.toNat]
  rfl

theorem toLower_toLower (c : Char) : c.toLower.toLower = c.toLower := by
  unfold Char.toLower
  by_cases h : c.toNat ≥ 65 ∧ c.toNat ≤ 90
  · rw [if_pos h]
    have hv : Nat.isValidChar (c.toNat + 32) := Or.inl (by omega)
    rw [if_neg (by rw [toNat_ofNat_valid hv]; omega)]
  · rw [if_neg h, if_neg h]

theorem mem_subRunsAux {p : Char → Bool} {c : Char} :
    ∀ {l : List Char} {b : Bool}, c ∈ subRunsAux p b l → c = ' ' ∨ (c ∈ l ∧ p c = false) := by
  intro l
  induction l with
  | nil => intro b h; simp [subRunsAux] at h
  | cons a as ih =>
    intro b h
    by_cases hp : p a = true
    · cases b with
      | true =>
        simp only [subRunsAux, hp, if_true] at h
        rcases ih h with h1 | ⟨h2, h3⟩
        · exact Or.inl h1
        · exact Or.inr ⟨List.mem_cons_of_mem _ h2, h3⟩
      | false =>
        simp only [subRunsAux, hp, if_true] at h
        rcases List.mem_cons.mp h with h1 | h1
        · exact Or.inl h1
        · rcases ih h1 with h2 | ⟨h2, h3⟩
          · exact Or.inl h2
          · exact Or.inr ⟨List.mem_cons_of_mem _ h2, h3⟩
    · rw [Bool.not_eq_true] at hp
      simp only [subRunsAux, hp, Bool.false_eq_true, if_false] at h
      rcases List.mem_cons.mp h with h1 | h1
      · subst h1; exact Or.inr ⟨List.mem_cons_self _ _, hp⟩
      · rcases ih h1 with h2 | ⟨h2, h3⟩
        · exact Or.inl h2
        · exact Or.inr ⟨List.mem_cons_of_mem _ h2, h3⟩

theorem subRunsAux_eq_self {p : Char → Bool} :
    ∀ {l : List Char} (b : Bool), (∀ c ∈ l, p c = false) → subRunsAux p b l = l := by
  intro l
  induction l with
  | nil => intro b _; rfl
  | cons a as ih =>
    intro b h
    have ha : p a = false := h a (List.mem_cons_self a as)
    simp only [subRunsAux, ha, Bool.false_eq_true, if_false]
    rw [ih false (fun c hc => h c (List.mem_cons_of_mem _ hc))]

theorem mem_pyStrip {c : Char} {l : List Char} (h : c ∈ pyStrip l) : c ∈ l := by
  unfold pyStrip at h
  rw [List.mem_reverse] at h
  have h1 := (List.dropWhile_sublist isPySpace).subset h
  rw [List.mem_reverse] at h1
  exact (List.dropWhile_sublist _).subset h1

theorem normalizeChars_chars {c : Char} {l : List Char} (h : c ∈ normalizeChars l) :
    Char.toLower c = c ∧ isSepChar c = false ∧ isKeptChar c = true := by
  unfold normalizeChars at h
  rw [List.mem_filter] at h
  obtain ⟨h1, hkept⟩ := h
  rcases mem_subRunsAux h1 with rfl | ⟨h2, hws⟩
  · exact ⟨by decide, by decide, by decide⟩
  · rcases mem_subRunsAux h2 with rfl | ⟨h3, hsep⟩
    · exact ⟨by decide, by decide, by decide⟩
    · have h4 := mem_pyStrip h3
      rw [List.mem_map] at h4
      obtain ⟨a, _, rfl⟩ := h4
      exact ⟨toLower_toLower a, hsep, hkept⟩

theorem map_toLower_eq_self {l : List Char} (h : ∀ c ∈ l, Char.toLower c = c) :
    l.map Char.toLower = l :=
  (List.map_congr_left h).trans (List.map_id _)

theorem normalizeChars_normalizeChars (l : List Char) :
    normalizeChars (normalizeChars l) = subRuns isPySpace (pyStrip (normalizeChars l)) := by
  have H := fun c (hc : c ∈ normalizeChars l) => normalizeChars_chars hc
  set t := normalizeChars l with ht
  show normalizeChars t = subRuns isPySpace (pyStrip t)
  unfold normalizeChars
  rw [map_toLower_eq_self (fun c hc => (H c hc).1)]
  rw [show subRuns isSepChar (pyStrip t) = pyStrip t from
    subRunsAux_eq_self false (fun c hc => (H c (mem_pyStrip hc)).2.1)]
  rw [List.filter_eq_self.mpr ?_]
  intro c hc
  rcases mem_subRunsAux hc with rfl | ⟨h2, _⟩
  · decide
  · exact (H c (mem_pyStrip h2)).2.2

/-- C3, counterexample: the claim `normalize(normalize(s)) = normalize(s)`
fails at `s = "_a_"`, whose normalization `" a "` keeps the spaces the
separator replacement introduced at the edges, while a second pass strips
them to `"a"`. -/
theorem c3_counterexample :
    normalize_text_str (normalize_text_str "_a_") ≠ normalize_text_str "_a_" := by
  decide

/-- C3, amended: `normalize` is not idempotent; for every string `s`, a
second application of `normalize` yields `normalize(s)` with leading and
trailing whitespace stripped and interior whitespace runs collapsed
(edge spaces come from separator replacement, interior runs from
special-character removal). -/
theorem c3_normalize_second_pass (s : String) :
    normalize_text_str (normalize_text_str s) = restripped (normalize_text_str s) := by
  unfold normalize_text_str restripped
  exact congrArg String.mk (normalizeChars_normalizeChars s.data)

/-! ## Lemmas about the row filter -/

theorem reLead_no_meta :
    ∀ (p : List Char), (∀ c ∈ p, isReMeta c = false) →
      ∀ t, reLead p t = leadEq (lowerList p) (lowerList t) := by
  intro p
  induction p with
  | nil => intro _ t; cases t <;> rfl
  | cons a ps ih =>
    intro hm t
    have ha : a ≠ '.' := by
      intro h
      subst h
      have := hm '.' (List.mem_cons_self _ _)
      simp [isReMeta] at this
    cases t with
    | nil => rfl
    | cons c cs =>
      show (reTokMatch a c && reLead ps cs) = _
      simp only [lowerList, List.map_cons]
      rw [reTokMatch, if_neg ha]
      rw [ih (fun c hc => hm c (List.mem_cons_of_mem _ hc)) cs]
      rfl

theorem reSearch_no_meta {p : List Char} (hm : ∀ c ∈ p, isReMeta c = false) :
    ∀ t, reSearch p t = occursIn (lowerList p) (lowerList t) := by
  intro t
  induction t with
  | nil =>
    show reLead p [] = (lowerList p).isEmpty
    cases p <;> rfl
  | cons c cs ih =>
    show (reLead p (c :: cs) || reSearch p cs) = _
    simp only [lowerList, List.map_cons]
    rw [reLead_no_meta p hm (c :: cs), ih]
    rfl

/-- C4, counterexample: the claim that query characters are never
interpreted as pattern syntax fails at query `"a.c"`: `text_search`
keeps the row `"abc"` (the dot is a regex wildcard) although `"a.c"` is
not a literal case-insensitive substring of `"abc"`. -/
theorem c4_counterexample :
    (text_search tRe "a.c").rows = [[Value.vStr "abc"]] ∧
      containsCI "abc" "a.c" = false := by
  decide

/-- C4, amended: the empty query returns the table unchanged; the query
is passed to `str.contains` as a regex pattern (not literal-escaped), so
query characters ARE interpreted as pattern syntax; for queries free of
regex metacharacters the claimed behaviour holds: the result is exactly
the order-preserved subset of rows in which some object/string column's
string form contains the query as a case-insensitive literal substring. -/
theorem c4_search_literal (t : Table) (q : String) :
    text_search t "" = t ∧
    (q ≠ "" → (∀ c ∈ q.data, isReMeta c = false) →
      (text_search t q).rows = t.rows.filter (fun r =>
        (List.range t.cols.length).any (fun j =>
          t.textual.getD j false && containsCI ((cellAt r j).pyStr) q))) := by
  constructor
  · simp [text_search]
  · intro hq hm
    simp only [text_search, if_neg hq]
    have hfun : rowMatches t q = fun r =>
        (List.range t.cols.length).any (fun j =>
          t.textual.getD j false && containsCI ((cellAt r j).pyStr) q) := by
      funext r
      unfold rowMatches containsCI
      simp only [reSearch_no_meta hm]
    rw [hfun]

/-- C4, witness: the amended theorem applied to a concrete table and the
metacharacter-free query `"ab"`. -/
theorem c4_witness :
    (text_search tSearch "ab").rows = tSearch.rows.filter (fun r =>
      (List.range tSearch.cols.length).any (fun j =>
        tSearch.textual.getD j false && containsCI ((cellAt r j).pyStr) "ab")) :=
  (c4_search_literal tSearch "ab").2 (by decide) (by decide)

/-! ## Lemmas about the grouping engine -/

theorem groupByGo_map_fst (key : List Value → String) :
    ∀ (fuel : Nat) (rows : List (List Value)), rows.length ≤ fuel →
      (groupByGo key fuel rows).map Prod.fst = firstOccurs (rows.map key) := by
  intro fuel
  induction fuel with
  | zero =>
    intro rows h
    obtain rfl := List.eq_nil_of_length_eq_zero (Nat.le_zero.mp h)
    simp [groupByGo, firstOccurs]
  | succ fuel ih =>
    intro rows h
    cases rows with
    | nil => simp [groupByGo, firstOccurs]
    | cons r rs =>
      simp only [groupByGo, List.map_cons]
      rw [firstOccurs,
        ih _ (le_trans (List.length_filter_le _ _) (Nat.le_of_succ_le_succ h)),
        List.filter_map]
      rfl

theorem groupByGo_key_mem (key : List Value → String) :
    ∀ (fuel : Nat) (rows : List (List Value)) (k : String) (g : List (List Value)),
      (k, g) ∈ groupByGo key fuel rows → ∃ x ∈ rows, key x = k := by
  intro fuel
  induction fuel with
  | zero =>
    intro rows k g h
    cases rows <;> simp [groupByGo] at h
  | succ fuel ih =>
    intro rows k g h
    cases rows with
    | nil => simp [groupByGo] at h
    | cons r rs =>
      rw [show groupByGo key (Nat.succ fuel) (r :: rs) =
          (key r, r :: rs.filter (fun x => key x == key r)) ::
            groupByGo key fuel (rs.filter (fun x => !(key x == key r))) from rfl,
        List.mem_cons] at h
      rcases h with h | h
      · rw [Prod.mk.injEq] at h
        exact ⟨r, List.mem_cons_self _ _, h.1.symm⟩
      · obtain ⟨x, hx, hk⟩ := ih _ k g h
        exact ⟨x, List.mem_cons_of_mem _ (List.mem_filter.mp hx).1, hk⟩

theorem groupByGo_group_eq (key : List Value → String) :
    ∀ (fuel : Nat) (rows : List (List Value)), rows.length ≤ fuel →
      ∀ (k : String) (g : List (List Value)),
        (k, g) ∈ groupByGo key fuel rows → g = rows.filter (fun x => key x == k) := by
  intro fuel
  induction fuel with
  | zero =>
    intro rows h k g hm
    obtain rfl := List.eq_nil_of_length_eq_zero (Nat.le_zero.mp h)
    simp [groupByGo] at hm
  | succ fuel ih =>
    intro rows h k g hm
    cases rows with
    | nil => simp [groupByGo] at hm
    | cons r rs =>
      rw [show groupByGo key (Nat.succ fuel) (r :: rs) =
          (key r, r :: rs.filter (fun x => key x == key r)) ::
            groupByGo key fuel (rs.filter (fun x => !(key x == key r))) from rfl,
        List.mem_cons] at hm
      rcases hm with hm | hm
      · rw [Prod.mk.injEq] at hm
        obtain ⟨rfl, rfl⟩ := hm
        rw [List.filter_cons_of_pos (by simp)]
      · have hne : key r ≠ k := by
          obtain ⟨x, hx, hk⟩ := groupByGo_key_mem key _ _ k g hm
          have hxr := (List.mem_filter.mp hx).2
          simp only [Bool.not_eq_true', beq_eq_false_iff_ne] at hxr
          exact fun hEq => hxr (hk.trans hEq.symm)
        have hlen : (rs.filter (fun x => !(key x == key r))).length ≤ fuel :=
          le_trans (List.length_filter_le _ _) (Nat.le_of_succ_le_succ h)
        rw [ih _ hlen k g hm, List.filter_cons_of_neg (by simp [hne]), List.filter_filter]
        apply List.filter_congr
        intro x _
        by_cases hxk : key x == k
        · have hx2 : key x = k := beq_iff_eq.mp hxk
          have hkr : ¬(k = key r) := fun hEq => hne hEq.symm
          simp [hxk, hx2, hkr]
        · simp [hxk]

theorem groupByKey_map_fst (key : List Value → String) (rows : List (List Value)) :
    (groupByKey key rows).map Prod.fst = firstOccurs (rows.map key) :=
  groupByGo_map_fst key rows.length rows (Nat.le_refl _)

theorem groupByKey_group_eq (key : List Value → String) (rows : List (List Value)) :
    ∀ (k : String) (g : List (List Value)),
      (k, g) ∈ groupByKey key rows → g = rows.filter (fun x => key x == k) :=
  groupByGo_group_eq key rows.length rows (Nat.le_refl _)

/-- C6: grouping lists the groups in order of first occurrence of each
distinct case-insensitive parent value (the list of group keys is the
first-occurrence deduplication of the row keys), every group holds
exactly the rows bearing its key in original relative order, and on the
spec's example with parent values B, A, B, C the group order is B, A, C
with the B group holding the two B-rows in original order. -/
theorem c6_grouping :
    (∀ (key : List Value → String) (rows : List (List Value)),
        ((groupByKey key rows).map Prod.fst = firstOccurs (rows.map key)) ∧
        ∀ (k : String) (g : List (List Value)),
          (k, g) ∈ groupByKey key rows → g = rows.filter (fun x => key x == k)) ∧
    ((groupByKey keyLower rowsB).map Prod.fst = ["b", "a", "c"] ∧
     (groupByKey keyLower rowsB).map (fun p => cellAt (p.2.headD []) 0) =
       [Value.vStr "B", Value.vStr "A", Value.vStr "C"] ∧
     (groupByKey keyLower rowsB).map Prod.snd =
       [[[Value.vStr "B", Value.vInt 1], [Value.vStr "B", Value.vInt 3]],
        [[Value.vStr "A", Value.vInt 2]],
        [[Value.vStr "C", Value.vInt 4]]]) :=
  ⟨fun key rows => ⟨groupByKey_map_fst key rows, groupByKey_group_eq key rows⟩,
   by decide⟩

/-- C6, witness: the group-content law applied to the concrete B group of
the example rows. -/
theorem c6_witness :
    [[Value.vStr "B", Value.vInt 1], [Value.vStr "B", Value.vInt 3]] =
      rowsB.filter (fun x => keyLower x == "b") :=
  (c6_grouping.1 keyLower rowsB).2 "b"
    [[Value.vStr "B", Value.vInt 1], [Value.vStr "B", Value.vInt 3]] (by decide)

/-! ## Lemmas about the duplicate detector -/

theorem mem_enumFrom_le {α : Type} :
    ∀ {l : List α} {i : Nat} {p : Nat × α}, p ∈ List.enumFrom i l → i ≤ p.1 := by
  intro l
  induction l with
  | nil => intro i p h; simp [List.enumFrom] at h
  | cons a as ih =>
    intro i p h
    rw [show List.enumFrom i (a :: as) = (i, a) :: List.enumFrom (i + 1) as from rfl,
      List.mem_cons] at h
    rcases h with rfl | h
    · exact Nat.le_refl i
    · exact Nat.le_of_succ_le (ih h)

theorem enumFrom_nodup {α : Type} : ∀ (l : List α) (i : Nat), (List.enumFrom i l).Nodup := by
  intro l
  induction l with
  | nil => intro i; simp [List.enumFrom]
  | cons a as ih =>
    intro i
    rw [show List.enumFrom i (a :: as) = (i, a) :: List.enumFrom (i + 1) as from rfl,
      List.nodup_cons]
    refine ⟨fun hmem => ?_, ih (i + 1)⟩
    have := mem_enumFrom_le hmem
    omega

theorem dedupGo_kept_sublist (key : List Value → Value) :
    ∀ (l : List (List Value)) (seen : List Value) (i : Nat),
      (dedupGo key seen i l).1.Sublist (List.enumFrom i l) := by
  intro l
  induction l with
  | nil => intro seen i; simp [dedupGo, List.enumFrom]
  | cons r rest ih =>
    intro seen i
    rw [show List.enumFrom i (r :: rest) = (i, r) :: List.enumFrom (i + 1) rest from rfl]
    by_cases hm : key r ∈ seen
    · simp only [dedupGo, if_pos hm]
      exact (ih _ _).cons _
    · simp only [dedupGo, if_neg hm]
      exact (ih _ _).cons₂ _

theorem dedupGo_removed_sublist (key : List Value → Value) :
    ∀ (l : List (List Value)) (seen : List Value) (i : Nat),
      (dedupGo key seen i l).2.Sublist (List.enumFrom i l) := by
  intro l
  induction l with
  | nil => intro seen i; simp [dedupGo, List.enumFrom]
  | cons r rest ih =>
    intro seen i
    rw [show List.enumFrom i (r :: rest) = (i, r) :: List.enumFrom (i + 1) rest from rfl]
    by_cases hm : key r ∈ seen
    · simp only [dedupGo, if_pos hm]
      exact (ih _ _).cons₂ _
    · simp only [dedupGo, if_neg hm]
      exact (ih _ _).cons _

theorem dedupGo_perm (key : List Value → Value) :
    ∀ (l : List (List Value)) (seen : List Value) (i : Nat),
      ((dedupGo key seen i l).1 ++ (dedupGo key seen i l).2).Perm (List.enumFrom i l) := by
  intro l
  induction l with
  | nil => intro seen i; simp [dedupGo, List.enumFrom]
  | cons r rest ih =>
    intro seen i
    rw [show List.enumFrom i (r :: rest) = (i, r) :: List.enumFrom (i + 1) rest from rfl]
    by_cases hm : key r ∈ seen
    · simp only [dedupGo, if_pos hm]
      exact List.perm_middle.trans ((ih _ _).cons _)
    · simp only [dedupGo, if_neg hm]
      rw [List.cons_append]
      exact (ih _ _).cons _

theorem dedupGo_kept_iff (key : List Value → Value) :
    ∀ (l : List (List Value)) (seen : List Value) (i : Nat) (p : Nat × List Value),
      p ∈ (dedupGo key seen i l).1 ↔
        (p ∈ List.enumFrom i l ∧ key p.2 ∉ seen ∧
          ∀ q ∈ List.enumFrom i l, q.1 < p.1 → key q.2 ≠ key p.2) := by
  intro l
  induction l with
  | nil => intro seen i p; simp [dedupGo, List.enumFrom]
  | cons r rest ih =>
    intro seen i p
    rw [show List.enumFrom i (r :: rest) = (i, r) :: List.enumFrom (i + 1) rest from rfl]
    constructor
    · intro h
      by_cases hm : key r ∈ seen
      · simp only [dedupGo, if_pos hm] at h
        obtain ⟨hp, hns, hlt⟩ := (ih _ _ _).mp h
        refine ⟨List.mem_cons_of_mem _ hp,
          fun hs => hns (List.mem_cons_of_mem _ hs), ?_⟩
        intro q hq hql
        rcases List.mem_cons.mp hq with rfl | hq'
        · intro hEq
          exact hns (by rw [← hEq]; exact List.mem_cons_self _ _)
        · exact hlt q hq' hql
      · simp only [dedupGo, if_neg hm] at h
        rcases List.mem_cons.mp h with rfl | h'
        · refine ⟨List.mem_cons_self _ _, hm, ?_⟩
          intro q hq hql
          rcases List.mem_cons.mp hq with rfl | hq'
          · exact absurd hql (lt_irrefl _)
          · have hge := mem_enumFrom_le hq'
            have hql2 : q.1 < i := hql
            omega
        · obtain ⟨hp, hns, hlt⟩ := (ih _ _ _).mp h'
          refine ⟨List.mem_cons_of_mem _ hp,
            fun hs => hns (List.mem_cons_of_mem _ hs), ?_⟩
          intro q hq hql
          rcases List.mem_cons.mp hq with rfl | hq'
          · intro hEq
            exact hns (by rw [← hEq]; exact List.mem_cons_self _ _)
          · exact hlt q hq' hql
    · rintro ⟨hp, hns, hlt⟩
      rcases List.mem_cons.mp hp with rfl | hp'
      · by_cases hm : key r ∈ seen
        · exact absurd hm hns
        · simp only [dedupGo, if_neg hm]
          exact List.mem_cons_self _ _
      · have hp1 : i + 1 ≤ p.1 := mem_enumFrom_le hp'
        have hne_r : key p.2 ≠ key r := by
          have h0 := hlt (i, r) (List.mem_cons_self _ _) (by omega)
          exact fun hEq => h0 hEq.symm
        have hns' : key p.2 ∉ key r :: seen := by
          intro hmem
          rcases List.mem_cons.mp hmem with hEq | hmem'
          · exact hne_r hEq
          · exact hns hmem'
        have hlt' : ∀ q ∈ List.enumFrom (i + 1) rest, q.1 < p.1 → key q.2 ≠ key p.2 :=
          fun q hq hql => hlt q (List.mem_cons_of_mem _ hq) hql
        have hmem := (ih _ _ _).mpr ⟨hp', hns', hlt'⟩
        by_cases hm : key r ∈ seen
        · simp only [dedupGo, if_pos hm]
          exact hmem
        · simp only [dedupGo, if_neg hm]
          exact List.mem_cons_of_mem _ hmem

/-- C5: for a table with at least two columns the deduplication pass
partitions the indexed rows: kept and removed are order-preserving
sublists of the enumerated rows; together they are a permutation of them
(the multiset union law); they are disjoint; every enumerated row lands
in one of the two; and a row is kept exactly when no earlier-indexed row
has the same normalized second-column key — so for every key occurring
more than once, the first occurrence is kept and every later one is
removed. -/
theorem c5_dedup_partition (t : Table) (h : 2 ≤ t.cols.length) :
    ((dedupPipeline t).1.Sublist (List.enumFrom 0 t.rows)) ∧
    ((dedupPipeline t).2.1.Sublist (List.enumFrom 0 t.rows)) ∧
    (((dedupPipeline t).1 ++ (dedupPipeline t).2.1).Perm (List.enumFrom 0 t.rows)) ∧
    (∀ p ∈ (dedupPipeline t).1, p ∉ (dedupPipeline t).2.1) ∧
    (∀ p ∈ List.enumFrom 0 t.rows, p ∉ (dedupPipeline t).1 → p ∈ (dedupPipeline t).2.1) ∧
    (∀ p ∈ List.enumFrom 0 t.rows,
      (p ∈ (dedupPipeline t).1 ↔
        ∀ q ∈ List.enumFrom 0 t.rows, q.1 < p.1 → keyOf t q.2 ≠ keyOf t p.2)) := by
  have h1 : 1 < t.cols.length := h
  have hd : dedupPipeline t =
      ((dedupGo (keyOf t) [] 0 t.rows).1, (dedupGo (keyOf t) [] 0 t.rows).2, false) := by
    simp [dedupPipeline, if_pos h1]
  rw [hd]
  have hperm := dedupGo_perm (keyOf t) t.rows [] 0
  refine ⟨dedupGo_kept_sublist (keyOf t) t.rows [] 0,
    dedupGo_removed_sublist (keyOf t) t.rows [] 0, hperm, ?_, ?_, ?_⟩
  · have hnd : ((dedupGo (keyOf t) [] 0 t.rows).1 ++
        (dedupGo (keyOf t) [] 0 t.rows).2).Nodup :=
      hperm.nodup_iff.mpr (enumFrom_nodup _ _)
    exact fun p hp hq => (List.nodup_append.mp hnd).2.2 hp hq
  · intro p hp hnk
    rcases List.mem_append.mp (hperm.mem_iff.mpr hp) with hk | hr
    · exact absurd hk hnk
    · exact hr
  · intro p hp
    constructor
    · intro hk
      exact ((dedupGo_kept_iff (keyOf t) t.rows [] 0 p).mp hk).2.2
    · intro hall
      exact (dedupGo_kept_iff (keyOf t) t.rows [] 0 p).mpr
        ⟨hp, List.not_mem_nil _, hall⟩

/-- C5, witness: the multiset-union law at the spec's dedup fixture. -/
theorem c5_witness :
    ((dedupPipeline tDedup).1 ++ (dedupPipeline tDedup).2.1).Perm
      (List.enumFrom 0 tDedup.rows) :=
  (c5_dedup_partition tDedup (by decide)).2.2.1

/-- C9: a table with exactly one column skips deduplication entirely:
every row is kept, nothing is removed, and the warning flag is raised
instead of an error. -/
theorem c9_one_column (t : Table) (h : t.cols.length = 1) :
    dedupPipeline t = (List.enumFrom 0 t.rows, [], true) := by
  unfold dedupPipeline
  rw [if_neg (by omega)]

/-- C9, witness: the one-column branch at a concrete table. -/
theorem c9_witness :
    tOneCol.cols.length = 1 ∧
      dedupPipeline tOneCol = (List.enumFrom 0 tOneCol.rows, [], true) :=
  ⟨by decide, c9_one_column tOneCol (by decide)⟩

/-- C8, counterexample: duplicate detection does NOT compare non-string
cells by raw equality: in `tNaN`, row 1's key cell is the non-string NaN
and row 2's is the string "nan"; the raw values differ, yet the pipeline
(which stringifies object columns before normalizing) removes row 2 as a
duplicate of row 1. -/
theorem c8_counterexample :
    (dedupPipeline tNaN).2.1 = [(1, [Value.vStr "y", Value.vStr "nan"])] ∧
      cellAt [Value.vStr "x", Value.vNaN] 1 ≠ cellAt [Value.vStr "y", Value.vStr "nan"] 1 := by
  decide

/-- C8, amended: `normalize_text` returns every non-string input
unchanged; however, the deduplication pipeline converts every cell of an
object/string-dtyped column to its string form before normalizing, so
non-string cells of such a key column are compared by normalized string
form; the key is the raw second-column cell exactly when the second
column is not object/string-dtyped. -/
theorem c8_nonstring_passthrough :
    (∀ v : Value, (∀ s, v ≠ Value.vStr s) → normalize_text v = v) ∧
    (∀ (t : Table) (r : List Value), t.textual.getD 1 false = false →
      keyOf t r = cellAt r 1) := by
  constructor
  · intro v hv
    cases v with
    | vStr s => exact absurd rfl (hv s)
    | vInt n => rfl
    | vNaN => rfl
  · intro t r h
    unfold keyOf normalizeCell
    rw [h]
    simp

/-- C8, witness: the amended theorem at a non-string value and at a table
whose second column is numeric-dtyped. -/
theorem c8_witness :
    normalize_text (Value.vInt 7) = Value.vInt 7 ∧
      keyOf tNum [Value.vStr "x", Value.vInt 7] = cellAt [Value.vStr "x", Value.vInt 7] 1 :=
  ⟨c8_nonstring_passthrough.1 (Value.vInt 7) (fun _ h => Value.noConfusion h),
   c8_nonstring_passthrough.2 tNum [Value.vStr "x", Value.vInt 7] (by decide)⟩

/-! ## Lemmas about column masking and the frame effect of the HTML renderer -/

theorem applyMask_append {α : Type} :
    ∀ (m1 : List Bool) (l1 : List α) (m2 : List Bool) (l2 : List α),
      m1.length = l1.length →
      applyMask (m1 ++ m2) (l1 ++ l2) = applyMask m1 l1 ++ applyMask m2 l2 := by
  intro m1
  induction m1 with
  | nil =>
    intro l1 m2 l2 h
    obtain rfl := List.eq_nil_of_length_eq_zero h.symm
    simp [applyMask]
  | cons b bs ih =>
    intro l1 m2 l2 h
    cases l1 with
    | nil => simp at h
    | cons a as =>
      cases b with
      | true =>
        simp only [List.cons_append, applyMask, List.append_eq]
        rw [ih as m2 l2 (by simpa using h)]
      | false =>
        simp only [List.cons_append, applyMask, List.append_eq]
        rw [ih as m2 l2 (by simpa using h)]

theorem applyMask_all_true {α : Type} :
    ∀ (m : List Bool) (l : List α), m.length = l.length →
      (∀ b ∈ m, b = true) → applyMask m l = l := by
  intro m
  induction m with
  | nil =>
    intro l h _
    obtain rfl := List.eq_nil_of_length_eq_zero h.symm
    rfl
  | cons b bs ih =>
    intro l h hall
    cases l with
    | nil => simp at h
    | cons a as =>
      obtain rfl := hall b (List.mem_cons_self _ _)
      simp only [applyMask]
      rw [ih as (by simpa using h) (fun x hx => hall x (List.mem_cons_of_mem _ hx))]

theorem mem_applyMask {α : Type} :
    ∀ (m : List Bool) (l : List α) (a : α), a ∈ applyMask m l → a ∈ l := by
  intro m
  induction m with
  | nil => intro l a h; simp [applyMask] at h
  | cons b bs ih =>
    intro l a h
    cases l with
    | nil => simp [applyMask] at h
    | cons x xs =>
      cases b with
      | true =>
        simp only [applyMask, List.mem_cons] at h
        rcases h with rfl | h
        · exact List.mem_cons_self _ _
        · exact List.mem_cons_of_mem _ (ih xs a h)
      | false =>
        simp only [applyMask] at h
        exact List.mem_cons_of_mem _ (ih xs a h)

theorem mem_applyMask_map {α : Type} (p : α → Bool) :
    ∀ (l : List α) (a : α), a ∈ applyMask (l.map p) l → p a = true := by
  intro l
  induction l with
  | nil => intro a h; simp [applyMask] at h
  | cons c cs ih =>
    intro a h
    simp only [List.map_cons] at h
    cases hpc : p c with
    | true =>
      rw [hpc] at h
      simp only [applyMask, List.mem_cons] at h
      rcases h with rfl | h
      · exact hpc
      · exact ih a h
    | false =>
      rw [hpc] at h
      simp only [applyMask] at h
      exact ih a h

theorem zipWith_self_map {α β γ : Type} (g : α → β → γ) (f : α → β) :
    ∀ l : List α, List.zipWith g l (l.map f) = l.map (fun a => g a (f a)) := by
  intro l
  induction l with
  | nil => rfl
  | cons a as ih => simp only [List.map_cons, List.zipWith_cons_cons, ih]

theorem colIdx_eq_none :
    ∀ (l : List String) (name : String), name ∉ l → colIdx name l = none := by
  intro l
  induction l with
  | nil => intro name _; rfl
  | cons c cs ih =>
    intro name h
    have hne : (c == name) = false := by
      refine beq_eq_false_iff_ne.mpr (fun hEq => h ?_)
      rw [hEq]
      exact List.mem_cons_self _ _
    simp only [colIdx, hne, Bool.false_eq_true, if_false]
    rw [ih name (fun hm => h (List.mem_cons_of_mem _ hm))]
    rfl

theorem find?_all_head {α : Type} (l : List α) (p : α → Bool)
    (h : ∀ a ∈ l, p a = true) : l.find? p = l.head? := by
  cases l with
  | nil => rfl
  | cons a as =>
    rw [List.find?_cons_of_pos _ (h a (List.mem_cons_self _ _))]
    rfl

/-- C10, counterexample: the claim that `generate_parent_grouped_html`
leaves its DataFrame intact fails for a table that already owns a
`_group_key` column: the call overwrites that column and then drops it,
so the table comes back with the column (and its values) gone. -/
theorem c10_counterexample : generate_parent_grouped_df tGK ≠ tGK := by
  decide

/-- C10, amended: for every well-formed table with no column named
`_group_key`, `generate_parent_grouped_html` restores its DataFrame
exactly: the temporary `_group_key` column is appended, used and
dropped, and no other column or cell changes. -/
theorem c10_frame (t : Table) (hwf : t.WF) (hg : "_group_key" ∉ t.cols) :
    generate_parent_grouped_df t = t := by
  obtain ⟨hrows, htex⟩ := hwf
  have hnone : colIdx "_group_key" t.cols = none := colIdx_eq_none _ _ hg
  have hset : setCol t "_group_key" (groupKeyVals t) =
      { cols := t.cols ++ ["_group_key"], textual := t.textual ++ [true],
        rows := List.zipWith (fun r v => r ++ [v]) t.rows (groupKeyVals t) } := by
    unfold setCol
    rw [hnone]
  unfold generate_parent_grouped_df
  rw [hset]
  unfold dropColsByName
  have hmaskf : ∀ c ∈ t.cols,
      (!(decide (c ∈ (["_group_key"] : List String)))) = true := by
    intro c hc
    have hne : c ≠ "_group_key" := fun hEq => hg (hEq ▸ hc)
    simp [hne]
  have hmask : (t.cols ++ ["_group_key"]).map
        (fun c => !(decide (c ∈ (["_group_key"] : List String)))) =
      t.cols.map (fun c => !(decide (c ∈ (["_group_key"] : List String)))) ++ [false] := by
    rw [List.map_append]
    congr 1
  have hmaplen : (t.cols.map
      (fun c => !(decide (c ∈ (["_group_key"] : List String))))).length = t.cols.length :=
    List.length_map _ _
  have hmaptrue : ∀ b ∈ t.cols.map
      (fun c => !(decide (c ∈ (["_group_key"] : List String)))), b = true := by
    intro b hb
    obtain ⟨c, hc, rfl⟩ := List.mem_map.mp hb
    exact hmaskf c hc
  have hzip : List.zipWith (fun r v => r ++ [v]) t.rows (groupKeyVals t) =
      t.rows.map (fun r => r ++ [Value.vStr (keyLower r)]) := by
    unfold groupKeyVals
    exact zipWith_self_map _ _ t.rows
  simp only [hmask, hzip]
  obtain ⟨tc, tt, tr⟩ := t
  simp only [Table.mk.injEq]
  simp only at hrows htex hmaskf hmaplen hmaptrue
  refine ⟨?_, ?_, ?_⟩
  · rw [applyMask_append _ _ _ _ hmaplen,
      applyMask_all_true _ _ hmaplen hmaptrue]
    simp [applyMask]
  · rw [applyMask_append _ _ _ _ (hmaplen.trans htex.symm),
      applyMask_all_true _ _ (hmaplen.trans htex.symm) hmaptrue]
    simp [applyMask]
  · rw [List.map_map]
    refine (List.map_congr_left ?_).trans (List.map_id _)
    intro r hr
    show applyMask _ (r ++ [Value.vStr (keyLower r)]) = r
    rw [applyMask_append _ _ _ _ (hmaplen.trans (hrows r hr).symm),
      applyMask_all_true _ _ (hmaplen.trans (hrows r hr).symm) hmaptrue]
    simp [applyMask]

/-- C10, witness: the frame property at a concrete well-formed table. -/
theorem c10_witness :
    tPlain.WF ∧ "_group_key" ∉ tPlain.cols ∧
      generate_parent_grouped_df tPlain = tPlain :=
  ⟨by constructor <;> decide, by decide,
   c10_frame tPlain ⟨by decide, by decide⟩ (by decide)⟩

/-! ## Lemmas about the export assembler -/

theorem mem_setCol_cols {t : Table} {n : String} {vs : List Value} {c : String}
    (h : c ∈ (setCol t n vs).cols) : c ∈ t.cols ∨ c = n := by
  unfold setCol at h
  split at h
  · exact Or.inl h
  · rcases List.mem_append.mp h with h | h
    · exact Or.inl h
    · exact Or.inr (List.mem_singleton.mp h)

theorem mem_displayTable_ne_source {t : Table} {c : String}
    (h : c ∈ (displayTable t).cols) : c ≠ SOURCE_FILE := by
  unfold displayTable dropColsByName at h
  have h2 := mem_applyMask_map _ t.cols c h
  simpa using h2

theorem edit_cols_ne_source (t : Table) :
    ∀ c ∈ edit_cols (displayTable t), (c != SOURCE_FILE) = true := by
  intro c hc
  have h1 : c ∈ (withGroupKey (displayTable t)).cols :=
    mem_applyMask _ _ _ hc
  have h2 : c ∈ (displayTable t).cols ∨ c = "_group_key" := by
    unfold withGroupKey at h1
    exact mem_setCol_cols h1
  have hne : c ≠ SOURCE_FILE := by
    rcases h2 with h2 | rfl
    · exact mem_displayTable_ne_source h2
    · decide
  exact bne_iff_ne.mpr hne

/-- C7, counterexample: the claim that the exported column is the first
display-order non-provenance column fails: for a displayed table with
columns Concept and Code and a selected row, the code exports Code (the
selection table drops the parent column Concept), while the first
non-provenance display column is Concept. -/
theorem c7_counterexample :
    column_to_export dC1 selAll = some "Code" ∧
      specTargetColumn dC1 = some "Concept" ∧
      column_to_export dC1 selAll ≠ specTargetColumn dC1 := by
  decide

/-- C7, amended: when at least one row is selected (and the selection
table has a column), the exported column is the FIRST COLUMN OF THE
SELECTION TABLE in display order — the first display column that is
neither the parent (first) column nor a definition-named column, the
provenance column having already been removed from display — and the
provenance column can never be chosen; when the selection table has no
columns at all, the export is empty. -/
theorem c7_export_column (t : Table) (sel : Nat → Bool) :
    (((final_rows (displayTable t) sel).isEmpty = false ∧
        (edit_cols (displayTable t)).isEmpty = false) →
      column_to_export (displayTable t) sel = (edit_cols (displayTable t)).head? ∧
        SOURCE_FILE ∉ edit_cols (displayTable t)) ∧
    ((edit_cols (displayTable t)).isEmpty = true →
      assemble_export (displayTable t) sel = []) := by
  constructor
  · rintro ⟨h1, h2⟩
    constructor
    · unfold column_to_export
      rw [if_pos (by rw [h1, h2]; rfl)]
      exact find?_all_head _ _ (edit_cols_ne_source t)
    · intro hmem
      have h3 := edit_cols_ne_source t SOURCE_FILE hmem
      simp at h3
  · intro h
    unfold assemble_export col_data
    have hcond : (!(final_rows (displayTable t) sel).isEmpty &&
        !(edit_cols (displayTable t)).isEmpty) = false := by
      rw [h]
      simp
    split
    · split
      · rw [hcond]
        simp
      · simp
    · simp

/-- C7, witness: the amended theorem at a concrete table with a
selection. -/
theorem c7_witness :
    column_to_export (displayTable tPlain) selAll =
        (edit_cols (displayTable tPlain)).head? ∧
      SOURCE_FILE ∉ edit_cols (displayTable tPlain) :=
  (c7_export_column tPlain selAll).1 ⟨by decide, by decide⟩

/-- C1: the export evaluated at the failing input — a filtered table of
three rows with zero selections.  The fallback branch does pick a target
column (Concept) from the filtered table, and that column has three
non-empty values, yet the assembled export is empty: the claimed
fall-back to exporting the whole filtered table's values never happens. -/
theorem c1_fallback_empty :
    column_to_export dC1 selNone = some "Concept" ∧
      colValuesDropNa dC1.cols dC1.rows "Concept" =
        [Value.vStr "Age", Value.vStr "Sex", Value.vStr "Height"] ∧
      assemble_export dC1 selNone = [] := by
  decide

/-- C2, counterexample: the claim of a single-COLUMN spreadsheet fails:
with two selected values a and b, the written grid is the single row
`[[a, b]]` (`pd.DataFrame([values])` is one row), not the single column
`[[a], [b]]`. -/
theorem c2_counterexample :
    col_data dC2 selAll = [[Value.vStr "a", Value.vStr "b"]] ∧
      singleColumnGrid (assemble_export dC2 selAll) =
        [[Value.vStr "a"], [Value.vStr "b"]] ∧
      export_grid dC2 selAll ≠ singleColumnGrid (assemble_export dC2 selAll) := by
  decide

/-- C2, amended: the export writes a single-ROW spreadsheet with no
header row: the written cell grid is exactly one row holding the
assembler's output sequence in order (values side by side, not stacked),
and the file is offered for download as new_meta_schema.xlsx. -/
theorem c2_export_grid (d : Table) (sel : Nat → Bool) :
    export_grid d sel = [assemble_export d sel] ∧
      (export_grid d sel).length = 1 ∧
      download_name = "new_meta_schema.xlsx" := by
  have h : export_grid d sel = [assemble_export d sel] := by
    unfold export_grid assemble_export col_data
    split
    · split
      · split
        · simp
        · simp
      · simp
    · simp
  exact ⟨h, by rw [h]; rfl, rfl⟩

end MetaQuery
